import Mathlib

/-!
# q-shell: verification of the command-execution pipeline

A shallow embedding, in Lean 4, of the parts of the q-shell source that the
specification's testable claims speak about:

* the tokenizer (`src/utils/tokenizer.c`: `tokenize`, `evaluate_arithmetic`),
* the parser (`qsh_parse_command`, `process_variable_assignments`,
  `add_argument`),
* the executor's walk of a command chain (`src/core/shell.c`:
  `qsh_execute_command`, `execute_pipeline`),
* the profiler's report sort (`src/profiler/profiler.c`:
  `qsh_profiler_print_report`),
* the history, alias and variable stores (`qsh_history_add`,
  `qsh_alias_set`/`qsh_alias_expand`, `qsh_variable_set`).

Strings are modelled as `List Char` (no terminating NUL; reading past the
end of the buffer is modelled as end of input).  C `long` arithmetic is
modelled by unbounded `Int` (the inputs of interest stay far from overflow);
C truncating division/remainder are `Int.tdiv`/`Int.tmod`.  Functions whose
C originals consult process-global state (variable store, history store,
`getpid`, `getpwnam`, `glob`, subshell capture) take that state as an
explicit environment argument.  Out-of-memory paths (`malloc`/`strdup`
failure) are not modelled.  Loops of the C source that do not always make
progress are given explicit fuel; exhausting the fuel models divergence of
the original loop.
-/

namespace QSh

/-- ASCII `isspace` as used by the tokenizer (space, \t, \n, \v, \f, \r). -/
def isSp (c : Char) : Bool :=
  c = ' ' ∨ c = '\t' ∨ c = '\n' ∨ c = '\x0b' ∨ c = '\x0c' ∨ c = '\r'

/-- `is_operator_char` from `tokenizer.c`: `| & ; < >`. -/
def is_operator_char (c : Char) : Bool :=
  c = '|' ∨ c = '&' ∨ c = ';' ∨ c = '<' ∨ c = '>'

/-- A variable-name character: `isalnum(c) || c == '_'` (ASCII). -/
def isVarChar (c : Char) : Bool :=
  c.isAlphanum ∨ c = '_'

/-- `unescape_char` from `tokenizer.c`. -/
def unescape_char (c : Char) : Char :=
  if c = 'n' then '\n'
  else if c = 't' then '\t'
  else if c = 'r' then '\r'
  else c

/-- Value of a list of decimal digits (the digits already isolated),
as `strtol`/`atoi` accumulate it. -/
def digitsVal (ds : List Char) : Nat :=
  ds.foldl (fun a c => 10 * a + (c.toNat - '0'.toNat)) 0

/-- `strtol(value, NULL, 10)` on an arbitrary string: skip leading
whitespace, optional sign, then leading digits; no digits gives 0. -/
def strtolPrefix (s : List Char) : Int :=
  let s1 := s.dropWhile isSp
  match s1 with
  | '-' :: t => -(digitsVal (t.takeWhile Char.isDigit) : Int)
  | '+' :: t => (digitsVal (t.takeWhile Char.isDigit) : Int)
  | t => (digitsVal (t.takeWhile Char.isDigit) : Int)

/-- The `switch (op)` of `evaluate_arithmetic`: apply the pending operator
to the accumulator.  Division and modulus are C truncating division; when
the right operand is 0 the C code skips the operation, leaving the
accumulator unchanged. -/
def applyOp (op : Char) (acc num : Int) : Int :=
  if op = '+' then acc + num
  else if op = '-' then acc - num
  else if op = '*' then acc * num
  else if op = '/' then (if num = 0 then acc else Int.tdiv acc num)
  else if op = '%' then (if num = 0 then acc else Int.tmod acc num)
  else acc

/-- The parenthesis-matching scan shared by `evaluate_arithmetic`'s
subexpression case (start depth 1) and the tokenizer's arithmetic-expansion
case (start depth 2): `while (*p && depth > 0) ...; p++`.  Returns the
number of characters consumed when the depth reaches 0 (including the
closing parenthesis), `none` when the input ends first.  No escape
handling. -/
def parenScan (d : Nat) : List Char → Option Nat
  | [] => none
  | c :: t =>
    if c = '(' then (parenScan (d + 1) t).map (· + 1)
    else if c = ')' then
      (if d = 1 then some 1 else (parenScan (d - 1) t).map (· + 1))
    else (parenScan d t).map (· + 1)

/-- Environment seen by `evaluate_arithmetic`: the variable store
(`qsh_variable_get`). -/
structure ArEnv where
  vget : List Char → Option (List Char)

/-- After an operand has been consumed, `evaluate_arithmetic` skips
whitespace and looks for the next operator (`if (*p is one of + - * / %)
op = *p++; else break`).  Returns the operator and the rest, or `none`
when the loop breaks. -/
def opAfter (rest : List Char) : Option (Char × List Char) :=
  match rest.dropWhile isSp with
  | [] => none
  | c :: t2 =>
    if c = '+' ∨ c = '-' ∨ c = '*' ∨ c = '/' ∨ c = '%' then some (c, t2)
    else none

/-- The main loop of `evaluate_arithmetic`.  `evalSub` evaluates a
parenthesized subexpression (the recursive call); `fuel` bounds the loop,
each iteration consumes at least one character so any fuel of at least the
input length is enough. -/
def evLoop (env : ArEnv) (evalSub : List Char → Int) :
    Nat → Int → Char → List Char → Int
  | 0, acc, _, _ => acc
  | f + 1, acc, op, p =>
    let p1 := p.dropWhile isSp
    match p1 with
    | [] => acc
    | c :: t =>
      if c = '(' then
        match parenScan 1 t with
        | some n =>
          -- matched: evaluate the subexpression of length n-1
          let acc1 := applyOp op acc (evalSub (t.take (n - 1)))
          match opAfter (t.drop n) with
          | some (op2, t2) => evLoop env evalSub f acc1 op2 t2
          | none => acc1
        | none =>
          -- unmatched: the scan ran to the end of the string, num stays 0
          applyOp op acc 0
      else if c.isDigit then
        let acc1 := applyOp op acc (digitsVal (p1.takeWhile Char.isDigit))
        match opAfter (p1.dropWhile Char.isDigit) with
        | some (op2, t2) => evLoop env evalSub f acc1 op2 t2
        | none => acc1
      else if c = '$' then
        let nm := (t.takeWhile isVarChar).take 255
        let num := match env.vget nm with
          | some v => strtolPrefix v
          | none => 0
        let acc1 := applyOp op acc num
        match opAfter (t.drop nm.length) with
        | some (op2, t2) => evLoop env evalSub f acc1 op2 t2
        | none => acc1
      else
        -- unknown character: p++ and continue, operator unchanged
        evLoop env evalSub f acc op t

/-- `evaluate_arithmetic` with explicit fuel for the nesting depth of
parenthesized subexpressions (each recursive call strictly shrinks the
string, so any fuel of at least the string length suffices). -/
def evalArithFuel (env : ArEnv) : Nat → List Char → Int
  | 0, _ => 0
  | f + 1, expr =>
    if expr = [] then 0
    else evLoop env (evalArithFuel env f) (expr.length + 1) 0 '+' expr

/-- `evaluate_arithmetic` from `tokenizer.c`: left-to-right evaluator over
`+ - * / %` with parenthesized subexpressions and `$NAME` references. -/
def evaluate_arithmetic (env : ArEnv) (expr : List Char) : Int :=
  evalArithFuel env (expr.length + 1) expr

/-! ## Tokenizer (`tokenize` from `src/utils/tokenizer.c`) -/

/-- `token_type_t` with its payload (`token_t.value`).  `tnone` is
`TOKEN_NONE` (never produced by `tokenize`); `cmdSub` is `TOKEN_CMD_SUB`. -/
inductive Tok where
  | tnone : Tok
  | literal : List Char → Tok
  | operator : List Char → Tok
  | redirection : List Char → Tok
  | quoted : List Char → Tok
  | varTok : List Char → Tok
  | cmdSub : List Char → Tok
deriving DecidableEq, Repr

/-- Payload of a token (`token->value`; `[]` for `TOKEN_NONE`). -/
def Tok.val : Tok → List Char
  | .tnone => []
  | .literal s => s
  | .operator s => s
  | .redirection s => s
  | .quoted s => s
  | .varTok s => s
  | .cmdSub s => s

/-- `is_multi_char_operator` from `tokenizer.c`: true when the next two
characters are `&&`, `||`, `>>` or `2>`. -/
def is_multi_char_operator (c : Char) (r : List Char) : Bool :=
  match r with
  | [] => false
  | d :: _ =>
    (c = '&' ∧ d = '&') ∨ (c = '|' ∧ d = '|') ∨
    (c = '>' ∧ d = '>') ∨ (c = '2' ∧ d = '>')

/-- `is_redirection_start` from `tokenizer.c`. -/
def is_redirection_start (c : Char) (r : List Char) : Bool :=
  c = '<' ∨ c = '>' ∨ (c = '2' ∧ r.head? = some '>')

/-- The `$(...)` matching scan of `tokenize` (depth starts at 1, backslash
skips the next character).  Returns the number of characters consumed
including the closing parenthesis, `none` if the input ends first. -/
def csScan (d : Nat) : List Char → Option Nat
  | [] => none
  | '(' :: t => (csScan (d + 1) t).map (· + 1)
  | ')' :: t => if d = 1 then some 1 else (csScan (d - 1) t).map (· + 1)
  | '\\' :: _ :: t2 => (csScan d t2).map (· + 2)
  | _ :: t => (csScan d t).map (· + 1)

/-- The backtick matching scan of `tokenize`: characters before the next
unescaped backtick; `none` if the input ends first. -/
def btScan : List Char → Option Nat
  | [] => none
  | '`' :: _ => some 0
  | '\\' :: _ :: t2 => (btScan t2).map (· + 2)
  | _ :: t => (btScan t).map (· + 1)

/-- The quote-scanning loop of `tokenize`, specialized to double quotes
(the source's loop tests `quote == '"'` for the escape case, which is
constant per call): collect characters until the closing `"`, a backslash
escaping the next character via `unescape_char`.  Returns the collected
content and the remainder after the closing quote, or `none` for the
remainder when the quote is unclosed (the content is then dropped by the
caller). -/
def qScanEsc : List Char → (List Char × Option (List Char))
  | [] => ([], none)
  | '"' :: t => ([], some t)
  | '\\' :: e :: t2 =>
    let p := qScanEsc t2
    (unescape_char e :: p.1, p.2)
  | '\\' :: [] => ([], none)
  | ch :: t =>
    let p := qScanEsc t
    (ch :: p.1, p.2)

/-- The quote-scanning loop of `tokenize` for a quote character other than
`"` (no escape handling): literal characters until the closing quote. -/
def qScanPlain (q : Char) : List Char → (List Char × Option (List Char))
  | [] => ([], none)
  | ch :: t =>
    if ch = q then ([], some t)
    else
      let p := qScanPlain q t
      (ch :: p.1, p.2)

/-- The literal-word scan of `tokenize` (with escape support and the
escaped-quote mode `in_escaped_quote`/`escaped_quote_char`, modelled as
`esc : Option Char`).  Returns the collected word and the unconsumed
remainder. -/
def litScan (esc : Option Char) : List Char → (List Char × List Char)
  | [] => ([], [])
  | '\\' :: x :: t2 =>
    if x = '"' ∨ x = '\'' then
      let esc2 := match esc with
        | none => some x
        | some e => if x = e then none else some e
      let p := litScan esc2 t2
      (unescape_char x :: p.1, p.2)
    else
      let p := litScan esc t2
      (unescape_char x :: p.1, p.2)
  | '\\' :: [] =>
    -- a trailing backslash is not an escape and not a delimiter: copied
    (('\\') :: [], [])
  | ch :: t =>
    if esc.isSome then
      let p := litScan esc t
      (ch :: p.1, p.2)
    else if isSp ch ∨ is_operator_char ch ∨ ch = '"' ∨ ch = '\'' ∨ ch = '$' then
      ([], ch :: t)
    else
      let p := litScan esc t
      (ch :: p.1, p.2)

/-- `strstr(var_name, ":-")`: split a `${...}` body at the first
occurrence of `:-`; `none` when absent. -/
def findColonDash : List Char → Option (List Char × List Char)
  | [] => none
  | ':' :: '-' :: t => some ([], t)
  | c :: t => (findColonDash t).map (fun p => (c :: p.1, p.2))

/-- Environment consulted by `tokenize`: the variable store
(`qsh_variable_get`), the formatted values of the special variables
`$?`/`$$`/`$!` (`get_special_var`), and the history store
(`qsh_history_most_recent`, `qsh_history_get`). -/
structure TkEnv where
  vget : List Char → Option (List Char)
  lastStatusStr : List Char
  pidStr : List Char
  ppidStr : List Char
  histLast : Option (List Char)
  histGet : Nat → Option (List Char)

/-- Result of one iteration of `tokenize`'s main loop: stop (comment or
end), or emit zero or more tokens, update the quote flags and continue on
the rest of the input. -/
inductive TkAct where
  | stop : TkAct
  | step : List Tok → Bool → Bool → List Char → TkAct
deriving DecidableEq, Repr

/-- Literal-word branch of `tokenize` (the final `else` of the loop body):
scan a word; if non-empty emit a `TOKEN_LITERAL`. -/
def tkLit (sq dq : Bool) (c : Char) (r : List Char) : TkAct :=
  let p := litScan none (c :: r)
  .step (if p.1 = [] then [] else [.literal p.1]) sq dq p.2

/-- Variable branch of `tokenize` (`$?`/`$$`/`$!`, `${NAME}` and
`${NAME:-default}`, `$NAME`, bare `$`).  On an unmatched opening brace the
C code resets `current` back to the `$` and re-runs the loop without
progress (an infinite loop); this is modelled by a step that consumes
nothing, so the fuel of `tkLoop` runs out. -/
def tkVarBr (env : TkEnv) (sq dq : Bool) (c : Char) (r : List Char) : TkAct :=
  if c = '$' then
    match r with
    | [] => .step [.literal ['$']] sq dq []
    | q :: t =>
      if q = '?' then .step [.literal env.lastStatusStr] sq dq t
      else if q = '$' then .step [.literal env.pidStr] sq dq t
      else if q = '!' then .step [.literal env.ppidStr] sq dq t
      else if q = '{' then
        let inner := t.takeWhile (fun x => ¬ x = '}')
        match t.dropWhile (fun x => ¬ x = '}') with
        | _ :: t2 =>
          let nd := match findColonDash inner with
            | some p => (p.1, some p.2)
            | none => (inner, (none : Option (List Char)))
          let value := match env.vget nd.1 with
            | some v => some v
            | none => nd.2
          .step [.literal (value.getD [])] sq dq t2
        | [] => .step [.literal ['$']] sq dq (c :: r)
      else
        let nm := r.takeWhile isVarChar
        if nm = [] then .step [.literal ['$']] sq dq r
        else .step [.literal ((env.vget nm).getD [])] sq dq (r.drop nm.length)
  else tkLit sq dq c r

/-- Arithmetic-expansion branch of `tokenize` (`$((expr))`): match to the
closing parentheses with `parenScan` starting at depth 2, evaluate, and
emit a `TOKEN_LITERAL` holding the decimal result — but note the
extraction skips the character after `$((` and three characters at the
end, and emits nothing when the computed length is 0 or at least 1024.
Falls through to the variable branch when unmatched. -/
def tkArith (env : TkEnv) (sq dq : Bool) (c : Char) (r : List Char) : TkAct :=
  if c = '$' ∧ r.head? = some '(' ∧ r.tail.head? = some '(' ∧ ¬sq then
    let body := r.tail.tail
    match parenScan 2 body with
    | some n =>
      let eLen := n - 3
      if 0 < eLen ∧ eLen < 1024 then
        let expr := (body.drop 1).take eLen
        let res := evaluate_arithmetic ⟨env.vget⟩ expr
        .step [.literal (toString res).toList] sq dq (body.drop n)
      else .step [] sq dq (body.drop n)
    | none => tkVarBr env sq dq c r
  else tkVarBr env sq dq c r

/-- History-designator branch of `tokenize` (`!!` and `!N` outside single
quotes); a bare `!` falls through to the later branches. -/
def tkHist (env : TkEnv) (sq dq : Bool) (c : Char) (r : List Char) : TkAct :=
  if c = '!' ∧ ¬sq then
    match r with
    | '!' :: t => .step [.literal (env.histLast.getD [])] sq dq t
    | q :: _ =>
      if q.isDigit then
        let ds := r.takeWhile Char.isDigit
        .step [.literal ((env.histGet (digitsVal ds)).getD [])] sq dq
          (r.drop ds.length)
      else tkArith env sq dq c r
    | [] => tkArith env sq dq c r
  else tkArith env sq dq c r

/-- Quote branch of `tokenize`.  The `in_single_quote`/`in_double_quote`
flag is toggled at the opening quote (and, as in the source, never toggled
back when the closing quote is consumed by the inner scan). -/
def tkQuote (env : TkEnv) (sq dq : Bool) (c : Char) (r : List Char) : TkAct :=
  if c = '"' ∨ c = '\'' then
    let sq2 := if c = '\'' then !sq else sq
    let dq2 := if c = '"' then !dq else dq
    match (if c = '"' then qScanEsc r else qScanPlain c r) with
    | (cnt, some rem) => .step [.quoted cnt] sq2 dq2 rem
    | (_, none) => .step [] sq2 dq2 []
  else tkHist env sq dq c r

/-- Operator/redirection branch of `tokenize`.  The `&>` case inside the
multi-character branch is kept from the source although
`is_multi_char_operator` never lets it fire. -/
def tkOpBr (env : TkEnv) (sq dq : Bool) (c : Char) (r : List Char) : TkAct :=
  if is_operator_char c ∨ (c = '2' ∧ r.head? = some '>') then
    if is_multi_char_operator c r then
      match c, r with
      | '2', '>' :: '>' :: '&' :: '1' :: t =>
        .step [.redirection ('2' :: '>' :: '>' :: '&' :: '1' :: [])] sq dq t
      | '2', '>' :: '&' :: '1' :: t =>
        .step [.redirection ('2' :: '>' :: '&' :: '1' :: [])] sq dq t
      | '2', '>' :: '>' :: t => .step [.redirection ('2' :: '>' :: '>' :: [])] sq dq t
      | '2', '>' :: t => .step [.redirection ('2' :: '>' :: [])] sq dq t
      | '>', '>' :: t => .step [.redirection ('>' :: '>' :: [])] sq dq t
      | '&', '&' :: t => .step [.operator ('&' :: '&' :: [])] sq dq t
      | '|', '|' :: t => .step [.operator ('|' :: '|' :: [])] sq dq t
      | '&', '>' :: t => .step [.redirection ('&' :: '>' :: [])] sq dq t
      | _, _ => .step [] sq dq r
    else
      if is_redirection_start c r then .step [.redirection [c]] sq dq r
      else if c = '|' then .step [.operator ['|']] sq dq r
      else if c = '&' then .step [.operator ['&']] sq dq r
      else .step [.operator [c]] sq dq r
  else tkQuote env sq dq c r

/-- Here-document branch of `tokenize` (`<<` outside quotes). -/
def tkHeredoc (env : TkEnv) (sq dq : Bool) (c : Char) (r : List Char) : TkAct :=
  if c = '<' ∧ r.head? = some '<' ∧ ¬sq ∧ ¬dq then
    .step [.redirection ('<' :: '<' :: [])] sq dq r.tail
  else tkOpBr env sq dq c r

/-- Backtick command-substitution branch of `tokenize`. -/
def tkBt (env : TkEnv) (sq dq : Bool) (c : Char) (r : List Char) : TkAct :=
  if c = '`' ∧ ¬sq then
    match btScan r with
    | some n => .step [.cmdSub (r.take n)] sq dq (r.drop (n + 1))
    | none => tkHeredoc env sq dq c r
  else tkHeredoc env sq dq c r

/-- One iteration of `tokenize`'s main loop on the first unconsumed
character `c` (whitespace already skipped), in the source's branch order:
comment, `$(...)` command substitution (note this branch also matches an
arithmetic `$((expr))`, whose dedicated branch comes later), backticks,
here-document, operators/redirections, quotes, history designators,
arithmetic expansion, variables, literal word.  After the closing
parenthesis of `$(...)` the source skips one extra character
(`current++` after the scanning loop has already advanced past it). -/
def tkIter (env : TkEnv) (sq dq : Bool) (c : Char) (r : List Char) : TkAct :=
  if c = '#' ∧ ¬sq ∧ ¬dq then .stop
  else if c = '$' ∧ r.head? = some '(' ∧ ¬sq then
    match csScan 1 r.tail with
    | some n => .step [.cmdSub (r.tail.take (n - 1))] sq dq (r.tail.drop (n + 1))
    | none => tkBt env sq dq c r
  else tkBt env sq dq c r

/-- The main loop of `tokenize`.  Each iteration consumes at least one
character except in the diverging `${`-without-brace case, so fuel
`length + 1` is enough for every terminating run; `none` models a
`tokenize` call that never returns (the source loops forever). -/
def tkLoop (env : TkEnv) : Nat → Bool → Bool → List Char → Option (List Tok)
  | 0, _, _, _ => none
  | f + 1, sq, dq, cs =>
    match cs.dropWhile isSp with
    | [] => some []
    | c :: r =>
      match tkIter env sq dq c r with
      | .stop => some []
      | .step toks sq2 dq2 rest => (tkLoop env f sq2 dq2 rest).map (toks ++ ·)

/-- `tokenize` from `src/utils/tokenizer.c`.  The C function returns a
`token_list_t*` that is `NULL` only on allocation failure (not modelled);
`none` here corresponds to a call that never returns. -/
def tokenize (env : TkEnv) (input : List Char) : Option (List Tok) :=
  tkLoop env (input.length + 1) false false input

/-! ## Parser (`qsh_parse_command` from `src/utils/parser.c`, the version
with variable assignments, glob expansion and `TOKEN_CMD_SUB` handling) -/

/-- `MAX_ARGS` from `core/types.h`. -/
def MAX_ARGS : Nat := 64

/-- `MAX_REDIRECTIONS` from `core/types.h`. -/
def MAX_REDIRECTIONS : Nat := 4

/-- `qsh_cmd_operator_t`. -/
inductive COp where
  | cnone : COp
  | pipe : COp
  | cand : COp
  | cor : COp
  | background : COp
deriving DecidableEq, Repr

/-- `qsh_redir_type_t`.  `rnone` is `REDIR_NONE` (value 0), which is what
a redirection slot keeps when the token matches none of the parser's
`strcmp` cases (the slot was zeroed by `calloc`). -/
inductive RType where
  | rnone : RType
  | input : RType
  | output : RType
  | append : RType
  | errOut : RType
  | errAppend : RType
  | errToOut : RType
  | bothOut : RType
  | heredoc : RType
deriving DecidableEq, Repr

/-- `qsh_redirection_t`: type and target filename (`none` for `2>&1`). -/
structure Redir where
  rtype : RType
  target : Option (List Char)
deriving DecidableEq, Repr

/-- One `qsh_command_t` node.  `argc = args.length`; the `cmd` field of
the C struct (a copy of the first argument) carries no extra information
and is not modelled.  `op` is the chain operator to the next node; the
links of the C linked list are the list structure of the chain itself. -/
structure Cmd where
  args : List (List Char)
  redirs : List Redir
  op : COp
deriving DecidableEq, Repr

/-- `create_command`: zeroed node with `CMD_NONE`. -/
def create_command : Cmd := ⟨[], [], .cnone⟩

/-- Environment consulted by the parser: `glob(3)` expansion results
(`expand_glob`: for a pattern with no match the C code returns the pattern
itself, and on `glob` failure falls back to adding the bare argument, so
the oracle directly gives the list of strings appended), the home-directory
substitution performed by `expand_tilde` on strings starting with `~`
(`getpwnam`/`getpwuid`; on a failed lookup the original string), and
subshell capture for `TOKEN_CMD_SUB` (`qsh_parse_command` +
`qsh_execute_and_capture` + trailing-newline stripping; `none` when the
inner parse or capture produces nothing to append). -/
structure PEnv where
  glob : List Char → List (List Char)
  home : List Char → List Char
  csub : List Char → Option (List Char)

/-- `expand_tilde`: only strings starting with `~` are rewritten. -/
def expand_tilde (env : PEnv) (s : List Char) : List Char :=
  match s with
  | '~' :: _ => env.home s
  | _ => s

/-- `has_glob_chars`. -/
def has_glob_chars (s : List Char) : Bool :=
  s.any (fun c => c = '*' ∨ c = '?' ∨ c = '[')

/-- `add_argument` from the parser: glob-expanding arguments are appended
while `argc < MAX_ARGS - 1` (silent truncation); a plain argument is
dropped when the vector is already at `MAX_ARGS - 1`. -/
def add_argument (env : PEnv) (c : Cmd) (arg : List Char) : Cmd :=
  if has_glob_chars arg then
    { c with args := c.args ++ (env.glob arg).take (MAX_ARGS - 1 - c.args.length) }
  else if MAX_ARGS - 1 ≤ c.args.length then c
  else { c with args := c.args ++ [arg] }

/-- Apply the parser's `expand_tilde(current_cmd->argv[current_cmd->argc - 1])`
to the last argument slot (a no-op on an empty vector). -/
def modifyLast (f : List Char → List Char) : List (List Char) → List (List Char)
  | [] => []
  | a :: [] => f a :: []
  | a :: rest => a :: modifyLast f rest

/-- The parser's `TOKEN_OPERATOR` dispatch: which chain operator a token
value sets; an unrecognized value leaves the node's operator unchanged. -/
def opOf (v : List Char) (prev : COp) : COp :=
  if v = "|".toList then .pipe
  else if v = "&&".toList then .cand
  else if v = "||".toList then .cor
  else if v = "&".toList then .background
  else if v = ";".toList then .cnone
  else prev

/-- The parser's `TOKEN_REDIRECTION` `strcmp` chain (other than the
target-less `2>&1`, handled by the caller); an unmatched value leaves the
`calloc`-zeroed `REDIR_NONE` in place. -/
def redirTypeOf (v : List Char) : RType :=
  if v = "<".toList then .input
  else if v = ">".toList then .output
  else if v = ">>".toList then .append
  else if v = "2>".toList then .errOut
  else if v = "2>>".toList then .errAppend
  else if v = "&>".toList then .bothOut
  else if v = "<<".toList then .heredoc
  else .rnone

/-- The token-consumption loop of `qsh_parse_command`, carrying the
current node; returns the chain from the current node on, `none` on a
parse error (`NULL`). -/
def parseLoop (env : PEnv) : Cmd → List Tok → Option (List Cmd)
  | cur, [] => some [cur]
  | cur, t :: rest =>
    match t with
    | .tnone => parseLoop env cur rest
    | .operator v =>
      let cur2 := { cur with op := opOf v cur.op }
      -- a next node is created only when this is not the last token
      match rest with
      | [] => some [cur2]
      | _ :: _ => (parseLoop env create_command rest).map (cur2 :: ·)
    | .redirection v =>
      if MAX_REDIRECTIONS ≤ cur.redirs.length then none
      else if rest.isEmpty then none  -- missing redirection target
      else if v = "2>&1".toList then
        -- no filename; the target token is not consumed
        parseLoop env
          { cur with redirs := cur.redirs ++ [⟨.errToOut, none⟩] } rest
      else
        match rest with
        | [] => none  -- the source's second missing-target check
        | tgt :: rest2 =>
          let ty := redirTypeOf v
          if ty = .heredoc then
            -- the delimiter is stored verbatim (no tilde expansion)
            parseLoop env
              { cur with redirs := cur.redirs ++ [⟨ty, some tgt.val⟩] } rest2
          else
            parseLoop env
              { cur with
                redirs := cur.redirs ++ [⟨ty, some (expand_tilde env tgt.val)⟩] }
              rest2
    | .cmdSub v =>
      match env.csub v with
      | none => parseLoop env cur rest
      | some out =>
        if MAX_ARGS - 1 ≤ cur.args.length then none
        else parseLoop env (add_argument env cur out) rest
    | .literal v =>
      if MAX_ARGS - 1 ≤ cur.args.length then none
      else
        parseLoop env
          { add_argument env cur v with
            args := modifyLast (expand_tilde env) (add_argument env cur v).args }
          rest
    | .quoted v =>
      if MAX_ARGS - 1 ≤ cur.args.length then none
      else parseLoop env (add_argument env cur v) rest
    | .varTok v =>
      if MAX_ARGS - 1 ≤ cur.args.length then none
      else parseLoop env (add_argument env cur v) rest

/-- The test of `process_variable_assignments`: a leading `TOKEN_LITERAL`
of the form `NAME=VALUE` (`strchr` finds `=` past the first character) is
consumed as an assignment, whether or not the name is valid. -/
def isAssignTok : Tok → Bool
  | .literal (c :: rest) => ¬ c = '=' ∧ rest.contains '='
  | _ => false

/-- `qsh_parse_command`, starting from the token list produced by
`tokenize`: consume the assignment prefix (whose `qsh_variable_set` calls
are modelled separately, see `qsh_variable_set`), return `none` (`NULL`)
when nothing remains, otherwise run the token-consumption loop. -/
def qsh_parse_command (env : PEnv) (ts : List Tok) : Option (List Cmd) :=
  let ts2 := ts.dropWhile isAssignTok
  if ts2 = [] then none else parseLoop env create_command ts2

/-! ## Executor (`qsh_execute_command` and `execute_pipeline` from
`src/core/shell.c`) -/

/-- How the executor's walk treats one node: `direct` — run in place
(built-in handler, or forked-and-awaited external, or forked background
external); `stage` — forked as a stage of a pipeline built by
`execute_pipeline`; `skip` — never run. -/
inductive EKind where
  | direct : EKind
  | stage : EKind
  | skip : EKind
deriving DecidableEq, Repr

/-- One command node as the executor sees it: whether `qsh_builtin_lookup`
matches its name, its chain operator, and the status observed from running
it (the handler's return value, the `WEXITSTATUS` of the awaited child, or
1 on a redirection failure).  The argument vector itself plays no role in
the chain walk. -/
structure XNode where
  builtin : Bool
  op : COp
  status : Int
deriving DecidableEq, Repr

/-- The stage-counting loop of `execute_pipeline`
(`while (current->next && current->operator == CMD_PIPE)`): the maximal
run of pipe-linked nodes plus the node that follows, and the unconsumed
remainder of the chain. -/
def pipeSplit : List XNode → List XNode × List XNode
  | [] => ([], [])
  | n :: rest =>
    if n.op = .pipe ∧ rest ≠ [] then
      let p := pipeSplit rest
      (n :: p.1, p.2)
    else ([n], rest)

/-- Exit status of a pipeline: that of its last stage. -/
def lastStatus (stages : List XNode) : Int :=
  match stages.getLast? with
  | some m => m.status
  | none => 0

/-- The chain walk of `qsh_execute_command`: per-node execution kinds and
the return value.  Built-ins run in place and observe `&&`/`||`; an
external node with `op = CMD_PIPE` hands the whole remaining chain to
`execute_pipeline`, whose status is returned immediately (the walk never
resumes); a trailing pipe (no next node) makes `execute_pipeline` return
-1 without forking anything; a background external is forked and the walk
continues without waiting; other externals are awaited and observe
`&&`/`||`. -/
def execChain : List XNode → List EKind × Int
  | [] => ([], 0)
  | n :: rest =>
    if n.builtin then
      if (n.op = .cand ∧ n.status ≠ 0) ∨ (n.op = .cor ∧ n.status = 0) then
        (.direct :: rest.map (fun _ => EKind.skip), n.status)
      else
        let p := execChain rest
        (.direct :: p.1, p.2)
    else if n.op = .pipe then
      match rest with
      | [] => (.skip :: [], -1)
      | _ :: _ =>
        let sp := pipeSplit (n :: rest)
        (sp.1.map (fun _ => EKind.stage) ++ sp.2.map (fun _ => EKind.skip),
          lastStatus sp.1)
    else if n.op = .background then
      let p := execChain rest
      (.direct :: p.1, p.2)
    else
      if (n.op = .cand ∧ n.status ≠ 0) ∨ (n.op = .cor ∧ n.status = 0) then
        (.direct :: rest.map (fun _ => EKind.skip), n.status)
      else
        let p := execChain rest
        (.direct :: p.1, p.2)

/-- Whether the walk, handed this chain, runs its first node (true except
for an empty chain and for a leading external trailing-pipe node). -/
def headRuns : List XNode → Bool
  | [] => false
  | b :: r => b.builtin ∨ ¬ b.op = .pipe ∨ r ≠ []

/-- Whether node `j` of the chain is executed (directly or as a pipeline
stage) by the walk. -/
def executedAt (ns : List XNode) (j : Nat) : Bool :=
  match (execChain ns).1.get? j with
  | some k => ¬ k = .skip
  | none => false

/-! ## Profiler report sort (`qsh_profiler_print_report` from
`src/profiler/profiler.c`) -/

/-- One `qsh_syscall_stat_t` as far as the report's ordering is concerned:
the syscall number and the call count (the timing fields travel with the
entry during swaps but play no role in the comparison). -/
structure SyscallStat where
  syscall_num : Nat
  count : Nat
deriving DecidableEq, Repr

/-- The inner loop of the report's exchange sort for a fixed `i`: walk the
tail with the current `sorted_stats[i]` in hand, swapping whenever
`sorted_stats[j].count > sorted_stats[i].count`.  Returns the final
occupant of slot `i` and the tail left behind by the swaps. -/
def statPass (cur : SyscallStat) : List SyscallStat → SyscallStat × List SyscallStat
  | [] => (cur, [])
  | y :: l =>
    if cur.count < y.count then
      let p := statPass y l
      (p.1, cur :: p.2)
    else
      let p := statPass cur l
      (p.1, y :: p.2)

/-- The report's double loop (`for i ...: for j > i ...: swap if greater`),
with fuel standing for the outer loop counter; `statPass` keeps the tail's
length, so fuel equal to the array length runs the outer loop to
completion exactly as the C bound does. -/
def exchangeSortF : Nat → List SyscallStat → List SyscallStat
  | 0, l => l
  | _ + 1, [] => []
  | f + 1, x :: t =>
    let p := statPass x t
    p.1 :: exchangeSortF f p.2

/-- The sort performed on the copied `syscall_stats` array before
printing. -/
def sortByCount (l : List SyscallStat) : List SyscallStat :=
  exchangeSortF l.length l

/-- The top-10 listing: the first 10 slots of the sorted array, printing
only those with a non-zero count. -/
def topTen (l : List SyscallStat) : List SyscallStat :=
  ((sortByCount l).take 10).filter (fun s => 0 < s.count)

/-! ## History store (`qsh_history_add` from `src/utils/history.c`) -/

/-- `MAX_HISTORY_ENTRIES` from `utils/history.h`. -/
def MAX_HISTORY_ENTRIES : Nat := 1000

/-- `qsh_history_entry_t`. -/
structure HistEntry where
  command : List Char
  timestamp : Int
  exit_status : Int
deriving DecidableEq, Repr

/-- `qsh_history_add`: when the store is full, free the oldest entry and
shift (`memmove`) before appending the new entry at the tail.  The entry
carries the timestamp taken at the call (`time(NULL)`); a `NULL` command
(rejected with -1, no change) and `strdup` failure are not modelled. -/
def qsh_history_add (h : List HistEntry) (e : HistEntry) : List HistEntry :=
  let h2 := if h.length = MAX_HISTORY_ENTRIES then h.tail else h
  h2 ++ [e]

/-! ## Alias store (`qsh_alias_set`, `qsh_alias_get`, `qsh_alias_expand`
from `src/utils/aliases.c`).  The hash table buckets its chains by a hash
of the name, but every operation compares full names with `strcmp`, so the
flattened table is modelled as an association list searched front to
back. -/

abbrev AliasStore := List (List Char × List Char)

/-- `qsh_alias_get`: `NULL` for an empty name or a missing entry. -/
def qsh_alias_get (st : AliasStore) (n : List Char) : Option (List Char) :=
  if n = [] then none
  else (st.find? (fun p => p.1 == n)).map (fun p => p.2)

/-- Update the first entry with the given name in place
(`find_alias` + overwrite of `entry->value`). -/
def updAlias : AliasStore → List Char → List Char → AliasStore
  | [], _, _ => []
  | p :: rest, n, v => if p.1 = n then (p.1, v) :: rest else p :: updAlias rest n v

/-- `qsh_alias_set`: reject an empty name; update an existing entry in
place, otherwise insert at the head of the (flattened) chain.  A `NULL`
value is replaced by the empty string by the source, so the value here is
simply the string. -/
def qsh_alias_set (st : AliasStore) (n v : List Char) : AliasStore :=
  if n = [] then st
  else if (st.find? (fun p => p.1 == n)).isSome then updAlias st n v
  else (n, v) :: st

/-- `qsh_alias_expand`: skip leading whitespace, split off the first
word, and if it names an alias substitute the alias value before the
remainder; otherwise return the (whitespace-skipped) input.  The C
function writes the result through an out-parameter and returns -1 only
on `NULL` arguments or allocation failure (not modelled). -/
def qsh_alias_expand (st : AliasStore) (input : List Char) : List Char :=
  let inp := input.dropWhile isSp
  if inp = [] then []
  else
    let w := inp.takeWhile (fun c => !(isSp c))
    if w = [] then inp
    else
      match qsh_alias_get st w with
      | none => inp
      | some v => v ++ inp.dropWhile (fun c => !(isSp c))

/-- The first whitespace-delimited word of a line (what `qsh_alias_expand`
looks up). -/
def firstWord (input : List Char) : List Char :=
  (input.dropWhile isSp).takeWhile (fun c => !(isSp c))

/-! ## Variable store (`qsh_variable_set` from the variable-management
part of `src/utils/tokenizer.c`).  Like the alias table, the hash table is
modelled flattened, searched front to back (`find_var` returns the first
entry whose name matches).  The process environment (`setenv`/`unsetenv`/
`getenv`) is modelled alongside as its own name–value map. -/

abbrev VarStore := List (List Char × List Char × Bool)

abbrev EnvMap := List (List Char × List Char)

/-- `getenv`. -/
def envGet (e : EnvMap) (n : List Char) : Option (List Char) :=
  (e.find? (fun p => p.1 == n)).map (fun p => p.2)

/-- `unsetenv`: remove the binding. -/
def envUnset (e : EnvMap) (n : List Char) : EnvMap :=
  e.filter (fun p => ¬ p.1 == n)

/-- `setenv(name, value, 1)`: overwrite any existing binding. -/
def envSet (e : EnvMap) (n v : List Char) : EnvMap :=
  (n, v) :: envUnset e n

/-- The name-validation loop of `qsh_variable_set`:
`isalnum(*p) || *p == '_'` for every character. -/
def validVarName (n : List Char) : Bool :=
  n.all isVarChar

/-- `find_var`. -/
def findVar (st : VarStore) (n : List Char) : Option (List Char × List Char × Bool) :=
  st.find? (fun p => p.1 == n)

/-- Update the first entry with the given name (the one `find_var`
returns): new value, and the exported flag overwritten with the
argument. -/
def updVar : VarStore → List Char → List Char → Bool → VarStore
  | [], _, _, _ => []
  | p :: rest, n, v, ex =>
    if p.1 = n then (n, v, ex) :: rest else p :: updVar rest n v ex

/-- `qsh_variable_set(name, value, exported)` acting on the store and the
process environment; the `Int` is the C return value.  An existing entry
is updated in place, its `exported` flag overwritten with the argument,
and the environment updated (`setenv` when exporting, `unsetenv`
otherwise); a new entry is inserted at the head of the chain and `setenv`
run only when exporting. -/
def qsh_variable_set (st : VarStore) (env : EnvMap) (n v : List Char)
    (exported : Bool) : VarStore × EnvMap × Int :=
  if n = [] then (st, env, -1)
  else if ¬ validVarName n then (st, env, -1)
  else if (findVar st n).isSome then
    (updVar st n v exported,
      if exported then envSet env n v else envUnset env n, 0)
  else
    ((n, v, exported) :: st,
      if exported then envSet env n v else env, 0)

/-- `qsh_variable_is_exported`: the exported flag of the entry `find_var`
returns, `false` when absent. -/
def qsh_variable_is_exported (st : VarStore) (n : List Char) : Bool :=
  match findVar st n with
  | some p => p.2.2
  | none => false

/-! ## Concrete environments used by the evaluations below -/

/-- An arithmetic environment with an empty variable store. -/
def arEnv0 : ArEnv := ⟨fun _ => none⟩

/-- A tokenizer environment: empty variable store, empty history, and
empty strings for the formatted special variables. -/
def tkEnv0 : TkEnv := ⟨fun _ => none, [], [], [], none, fun _ => none⟩

/-- A parser environment in which no glob pattern matches (so `glob`
returns the pattern itself, as `expand_glob` does on `GLOB_NOMATCH`),
tilde lookups leave the string unchanged, and command substitution
captures nothing. -/
def pEnv0 : PEnv := ⟨fun s => [s], id, fun _ => none⟩

/-! # Theorems

Helper lemmas first, then one theorem per claim (with its counterexample
and witness where required). -/

/-! ## Profiler sort lemmas -/

theorem statPass_length (l : List SyscallStat) :
    ∀ cur, ((statPass cur l).2).length = l.length := by
  induction l with
  | nil => intro cur; simp [statPass]
  | cons y l ih =>
    intro cur
    simp only [statPass]
    split <;> simp [ih]

theorem statPass_perm (l : List SyscallStat) :
    ∀ cur, List.Perm ((statPass cur l).1 :: (statPass cur l).2) (cur :: l) := by
  induction l with
  | nil => intro cur; simp [statPass]
  | cons y l ih =>
    intro cur
    simp only [statPass]
    split
    · -- swap: slot gets the max of (y, l); the old occupant goes into the tail
      exact (List.Perm.swap cur _ _).trans ((ih y).cons cur)
    · -- no swap: y stays in place
      exact ((List.Perm.swap y _ _).trans (((ih cur).cons y).trans
        (List.Perm.swap cur y l)))

theorem statPass_bound (l : List SyscallStat) :
    ∀ cur, cur.count ≤ (statPass cur l).1.count ∧
      ∀ x ∈ (statPass cur l).2, x.count ≤ (statPass cur l).1.count := by
  induction l with
  | nil => intro cur; simp [statPass]
  | cons y l ih =>
    intro cur
    simp only [statPass]
    split
    · rename_i hlt
      refine ⟨le_of_lt (lt_of_lt_of_le hlt (ih y).1), ?_⟩
      intro x hx
      rcases List.mem_cons.mp hx with rfl | h
      · exact le_of_lt (lt_of_lt_of_le hlt (ih y).1)
      · exact (ih y).2 x h
    · rename_i hge
      refine ⟨(ih cur).1, ?_⟩
      intro x hx
      rcases List.mem_cons.mp hx with rfl | h
      · exact le_trans (le_of_not_lt hge) (ih cur).1
      · exact (ih cur).2 x h

theorem exchangeSortF_perm :
    ∀ (n : Nat) (l : List SyscallStat), l.length ≤ n →
      List.Perm (exchangeSortF n l) l := by
  intro n
  induction n with
  | zero => intro l _; simp [exchangeSortF]
  | succ n ih =>
    intro l hl
    match l with
    | [] => simp [exchangeSortF]
    | x :: t =>
      simp only [exchangeSortF]
      have hlen : ((statPass x t).2).length ≤ n := by
        rw [statPass_length]
        simp only [List.length_cons] at hl
        omega
      exact ((ih _ hlen).cons _).trans (statPass_perm t x)

theorem exchangeSortF_sorted :
    ∀ (n : Nat) (l : List SyscallStat), l.length ≤ n →
      List.Pairwise (fun a b => b.count ≤ a.count) (exchangeSortF n l) := by
  intro n
  induction n with
  | zero =>
    intro l hl
    have : l = [] := List.length_eq_zero.mp (Nat.le_zero.mp hl)
    simp [this, exchangeSortF]
  | succ n ih =>
    intro l hl
    match l with
    | [] => simp [exchangeSortF]
    | x :: t =>
      simp only [exchangeSortF]
      have hlen : ((statPass x t).2).length ≤ n := by
        rw [statPass_length]
        simp only [List.length_cons] at hl
        omega
      refine List.Pairwise.cons ?_ (ih _ hlen)
      intro y hy
      have hmem : y ∈ (statPass x t).2 :=
        ((exchangeSortF_perm n _ hlen).mem_iff).mp hy
      exact (statPass_bound t x).2 y hmem

/-! ## History lemmas -/

theorem qsh_history_add_le (h : List HistEntry) (e : HistEntry)
    (hl : h.length ≤ MAX_HISTORY_ENTRIES) :
    (qsh_history_add h e).length ≤ MAX_HISTORY_ENTRIES := by
  unfold qsh_history_add
  split
  · rename_i hfull
    simp only [List.length_append, List.length_tail, List.length_cons,
      List.length_nil]
    simp only [MAX_HISTORY_ENTRIES] at *
    omega
  · rename_i hne
    simp only [List.length_append, List.length_cons, List.length_nil]
    have h2 : h.length ≠ MAX_HISTORY_ENTRIES := hne
    simp only [MAX_HISTORY_ENTRIES] at *
    omega

theorem qsh_history_foldl_le (es : List HistEntry) :
    ∀ (h : List HistEntry), h.length ≤ MAX_HISTORY_ENTRIES →
      (es.foldl qsh_history_add h).length ≤ MAX_HISTORY_ENTRIES := by
  induction es with
  | nil => intro h hl; simpa using hl
  | cons e es ih =>
    intro h hl
    exact ih _ (qsh_history_add_le h e hl)

/-! ## Variable store lemmas -/

theorem findVar_updVar (st : VarStore) (n v : List Char) (ex : Bool)
    (h : (findVar st n).isSome) :
    findVar (updVar st n v ex) n = some (n, v, ex) := by
  induction st with
  | nil => simp [findVar, List.find?] at h
  | cons p rest ih =>
    by_cases hp : p.1 = n
    · unfold updVar
      rw [if_pos hp]
      unfold findVar
      rw [List.find?_cons_of_pos _ (by simp)]
    · have h2 : (findVar rest n).isSome := by
        unfold findVar at h
        rwa [List.find?_cons_of_neg _ (by simp [hp])] at h
      unfold updVar
      rw [if_neg hp]
      unfold findVar
      rw [List.find?_cons_of_neg _ (by simp [hp])]
      exact ih h2

theorem envGet_envUnset (env : EnvMap) (n : List Char) :
    envGet (envUnset env n) n = none := by
  unfold envGet envUnset
  rw [List.find?_eq_none.mpr]
  · rfl
  · intro x hx
    have := (List.mem_filter.mp hx).2
    simpa using this

/-! ## C2: division or modulus by zero in the arithmetic evaluator -/

/-- Claim C2, counterexample: the claim says `a/0` and `a%0` evaluate
to 0 for every left operand `a`, but the evaluator leaves the accumulator
unchanged when the divisor is 0, so `5/0` yields 5 and `7%0` yields 7. -/
theorem claim_C2_counterexample :
    evaluate_arithmetic arEnv0 "5/0".toList = 5 ∧
    evaluate_arithmetic arEnv0 "7%0".toList = 7 ∧ (5 : Int) ≠ 0 ∧ (7 : Int) ≠ 0 := by
  refine ⟨by decide, by decide, by decide, by decide⟩

/-- Claim C2, amended: in the arithmetic evaluator, division or modulus
by zero is skipped (`if (num != 0)`), leaving the accumulator unchanged:
`a/0` evaluates to `a` and `a%0` evaluates to `a` — not to 0. -/
theorem claim_C2_amended :
    (∀ a : Int, applyOp '/' a 0 = a ∧ applyOp '%' a 0 = a) ∧
    evaluate_arithmetic arEnv0 "5/0".toList = 5 ∧
    evaluate_arithmetic arEnv0 "7%0".toList = 7 := by
  refine ⟨fun a => ⟨rfl, rfl⟩, by decide, by decide⟩

/-! ## C5: profiler top-10 ordering -/

/-- Claim C5, counterexample: with counts 1, 1, 2 for syscalls 0, 1, 2,
the report's exchange sort produces the tied entries in *descending*
syscall order `[2, 1, 0]`, so the listing is not stable-by-count with
ties ascending (which would give `[2, 0, 1]`). -/
theorem claim_C5_counterexample :
    topTen [⟨0, 1⟩, ⟨1, 1⟩, ⟨2, 2⟩] = [⟨2, 2⟩, ⟨1, 1⟩, ⟨0, 1⟩] ∧
    ¬ List.Pairwise
      (fun a b : SyscallStat => b.count < a.count ∨
        (a.count = b.count ∧ a.syscall_num < b.syscall_num))
      (topTen [⟨0, 1⟩, ⟨1, 1⟩, ⟨2, 2⟩]) := by
  exact ⟨by decide, by decide⟩

/-- Claim C5, amended: the report sorts the per-syscall entries by count
descending (the sorted array is a permutation of the original), but the
exchange sort is not stable: entries with equal counts appear in no
specified relative order (in particular tied entries can come out in
descending syscall order). -/
theorem claim_C5_amended (l : List SyscallStat) :
    List.Perm (sortByCount l) l ∧
    List.Pairwise (fun a b => b.count ≤ a.count) (sortByCount l) :=
  ⟨exchangeSortF_perm l.length l le_rfl, exchangeSortF_sorted l.length l le_rfl⟩

/-! ## C7: history ring bound and FIFO eviction -/

/-- Claim C7, confirmed: the history store never exceeds 1000 entries;
appending to a store below the bound appends at the tail, appending to a
full store evicts exactly the oldest entry (the head) and appends at the
tail, and any sequence of adds keeps the bound — FIFO order. -/
theorem claim_C7 (h : List HistEntry) (e : HistEntry) (es : List HistEntry)
    (hl : h.length ≤ MAX_HISTORY_ENTRIES) :
    (qsh_history_add h e).length ≤ MAX_HISTORY_ENTRIES ∧
    (h.length < MAX_HISTORY_ENTRIES → qsh_history_add h e = h ++ [e]) ∧
    (h.length = MAX_HISTORY_ENTRIES → qsh_history_add h e = h.tail ++ [e]) ∧
    (es.foldl qsh_history_add h).length ≤ MAX_HISTORY_ENTRIES := by
  refine ⟨qsh_history_add_le h e hl, ?_, ?_, qsh_history_foldl_le es h hl⟩
  · intro hlt
    unfold qsh_history_add
    rw [if_neg (by omega)]
  · intro heq
    unfold qsh_history_add
    rw [if_pos heq]

/-- Witness for C7 at a concrete store. -/
theorem claim_C7_witness :
    (qsh_history_add [] ⟨"ls".toList, 5, 0⟩).length ≤ MAX_HISTORY_ENTRIES ∧
    (List.length ([] : List HistEntry) < MAX_HISTORY_ENTRIES →
      qsh_history_add [] ⟨"ls".toList, 5, 0⟩ = [] ++ [⟨"ls".toList, 5, 0⟩]) ∧
    (List.length ([] : List HistEntry) = MAX_HISTORY_ENTRIES →
      qsh_history_add [] ⟨"ls".toList, 5, 0⟩ =
        List.tail [] ++ [⟨"ls".toList, 5, 0⟩]) ∧
    ([⟨"pwd".toList, 6, 0⟩].foldl qsh_history_add []).length ≤
      MAX_HISTORY_ENTRIES :=
  claim_C7 [] ⟨"ls".toList, 5, 0⟩ [⟨"pwd".toList, 6, 0⟩] (by decide)

/-! ## C9: alias expansion -/

/-- Claim C9, counterexample: the claim says expansion of a line whose
first word is not an alias is a no-op, but `qsh_alias_expand` skips
leading whitespace before copying, so with no aliases defined the input
`" x"` comes back as `"x"`, not unchanged. -/
theorem claim_C9_counterexample :
    qsh_alias_expand [] " x".toList = "x".toList ∧
    qsh_alias_expand [] " x".toList ≠ " x".toList := by
  exact ⟨by decide, by decide⟩

/-- Claim C9, amended: after `qsh_alias_set("ll", "ls -l")`, expanding
`"ll -a"` gives `"ls -l -a"`; and for every line whose first
whitespace-delimited word is not a defined alias, `qsh_alias_expand`
returns the input with its leading whitespace removed (so it is unchanged
exactly when the line does not start with whitespace). -/
theorem claim_C9_amended :
    (qsh_alias_expand (qsh_alias_set [] "ll".toList "ls -l".toList)
      "ll -a".toList = "ls -l -a".toList) ∧
    (∀ (st : AliasStore) (inp : List Char),
      qsh_alias_get st (firstWord inp) = none →
      qsh_alias_expand st inp = inp.dropWhile isSp) := by
  refine ⟨by decide, ?_⟩
  intro st inp h
  unfold firstWord at h
  simp only [qsh_alias_expand]
  by_cases h0 : inp.dropWhile isSp = []
  · simp [h0]
  · rw [if_neg h0]
    by_cases hw : (inp.dropWhile isSp).takeWhile (fun c => !(isSp c)) = []
    · rw [if_pos hw]
    · rw [if_neg hw, h]

/-- Witness for the quantified part of C9 at a concrete input. -/
theorem claim_C9_witness :
    qsh_alias_expand [] " x".toList = (" x".toList).dropWhile isSp :=
  claim_C9_amended.2 [] " x".toList (by decide)

/-! ## C10: un-exporting by plain assignment -/

/-- Claim C10, counterexample: the claim quantifies over every variable
already in the store, including environment-seeded ones, but a seeded name
that fails the validation loop of `qsh_variable_set` (here `A.B`, whose
`.` is neither alphanumeric nor `_`) makes the call return -1 and change
nothing: the entry stays exported and the name stays in the process
environment. -/
theorem claim_C10_counterexample :
    qsh_variable_set [("A.B".toList, "x".toList, true)]
        [("A.B".toList, "x".toList)] "A.B".toList "y".toList false =
      ([("A.B".toList, "x".toList, true)], [("A.B".toList, "x".toList)], -1) ∧
    qsh_variable_is_exported [("A.B".toList, "x".toList, true)] "A.B".toList
      = true ∧
    envGet [("A.B".toList, "x".toList)] "A.B".toList = some "x".toList := by
  exact ⟨by decide, by decide, by decide⟩

/-- Claim C10, amended: for every variable already in the store whose name
passes `qsh_variable_set`'s validation (non-empty, all characters
alphanumeric or `_`), calling `qsh_variable_set(name, value,
exported=false)` — as the parser does for a `NAME=VALUE` assignment
prefix — returns 0, overwrites the entry's exported flag to false, and
removes the name from the process environment. -/
theorem claim_C10_amended (st : VarStore) (env : EnvMap) (n v : List Char)
    (hval : validVarName n) (hne : n ≠ []) (hmem : (findVar st n).isSome) :
    (qsh_variable_set st env n v false).2.2 = 0 ∧
    findVar (qsh_variable_set st env n v false).1 n = some (n, v, false) ∧
    envGet (qsh_variable_set st env n v false).2.1 n = none := by
  unfold qsh_variable_set
  rw [if_neg hne, if_neg (by simpa using hval), if_pos hmem]
  exact ⟨rfl, findVar_updVar st n v false hmem, envGet_envUnset env n⟩

/-- Witness for C10 at a concrete store and environment. -/
theorem claim_C10_witness :
    (qsh_variable_set [("A".toList, "x".toList, true)]
      [("A".toList, "x".toList)] "A".toList "y".toList false).2.2 = 0 ∧
    findVar (qsh_variable_set [("A".toList, "x".toList, true)]
      [("A".toList, "x".toList)] "A".toList "y".toList false).1 "A".toList =
      some ("A".toList, "y".toList, false) ∧
    envGet (qsh_variable_set [("A".toList, "x".toList, true)]
      [("A".toList, "x".toList)] "A".toList "y".toList false).2.1 "A".toList =
      none :=
  claim_C10_amended [("A".toList, "x".toList, true)]
    [("A".toList, "x".toList)] "A".toList "y".toList
    (by decide) (by decide) (by decide)

/-! ## C4: short-circuit evaluation in the executor's chain walk -/

theorem pipeKinds_not_direct (l1 l2 : List XNode) (i : Nat) (k : EKind)
    (h : ((l1.map (fun _ => EKind.stage)) ++
      (l2.map (fun _ => EKind.skip))).get? i = some k) :
    ¬ k = .direct := by
  have hm := List.get?_mem h
  rcases List.mem_append.mp hm with hm1 | hm1
  · rcases List.mem_map.mp hm1 with ⟨_, _, rfl⟩
    simp
  · rcases List.mem_map.mp hm1 with ⟨_, _, rfl⟩
    simp

theorem executedAt_zero (ns : List XNode) : executedAt ns 0 = headRuns ns := by
  match ns with
  | [] => rfl
  | n :: rest =>
    by_cases hb : n.builtin
    · by_cases hstop : (n.op = .cand ∧ n.status ≠ 0) ∨ (n.op = .cor ∧ n.status = 0)
      · have hk : (execChain (n :: rest)).1 =
            .direct :: rest.map (fun _ => EKind.skip) := by
          simp [execChain, hb, hstop]
        unfold executedAt
        rw [hk]
        simp [headRuns, hb]
      · have hk : (execChain (n :: rest)).1 =
            .direct :: (execChain rest).1 := by
          simp [execChain, hb, hstop]
        unfold executedAt
        rw [hk]
        simp [headRuns, hb]
    · by_cases hp : n.op = .pipe
      · match rest with
        | [] =>
          have hk : (execChain (n :: ([] : List XNode))).1 = .skip :: [] := by
            simp [execChain, hb, hp]
          unfold executedAt
          rw [hk]
          simp [headRuns, hb, hp]
        | m :: r2 =>
          have hk : (execChain (n :: m :: r2)).1 =
              ((pipeSplit (n :: m :: r2)).1.map (fun _ => EKind.stage)) ++
                ((pipeSplit (n :: m :: r2)).2.map (fun _ => EKind.skip)) := by
            simp [execChain, hb, hp]
          unfold executedAt
          rw [hk]
          have hps : (pipeSplit (n :: m :: r2)).1 =
              n :: (pipeSplit (m :: r2)).1 := by
            simp [pipeSplit, hp]
          rw [hps]
          simp [headRuns, hb, hp]
      · by_cases hbg : n.op = .background
        · have hk : (execChain (n :: rest)).1 =
              .direct :: (execChain rest).1 := by
            simp [execChain, hb, hp, hbg]
          unfold executedAt
          rw [hk]
          simp [headRuns, hb, hp]
        · by_cases hstop : (n.op = .cand ∧ n.status ≠ 0) ∨ (n.op = .cor ∧ n.status = 0)
          · have hk : (execChain (n :: rest)).1 =
                .direct :: rest.map (fun _ => EKind.skip) := by
              simp [execChain, hb, hp, hbg, hstop]
            unfold executedAt
            rw [hk]
            simp [headRuns, hb, hp]
          · have hk : (execChain (n :: rest)).1 =
                .direct :: (execChain rest).1 := by
              simp [execChain, hb, hp, hbg, hstop]
            unfold executedAt
            rw [hk]
            simp [headRuns, hb, hp]

/-- Claim C4, counterexample: in the chain `a | b && c` (node 0 external
with `op = Pipe`, node 1 with `op = And` and status 0, node 2), node 1 is
executed (as the last stage of the pipeline) and returns 0, but node 2 is
never executed: `qsh_execute_command` returns the pipeline status
immediately without continuing the chain, contradicting "after A && B,
B is executed iff A returned status 0". -/
theorem claim_C4_counterexample :
    executedAt [⟨false, .pipe, 0⟩, ⟨false, .cand, 0⟩, ⟨false, .cnone, 7⟩] 1
      = true ∧
    (([⟨false, .pipe, 0⟩, ⟨false, .cand, 0⟩, ⟨false, .cnone, 7⟩] :
      List XNode).get? 1) = some ⟨false, .cand, 0⟩ ∧
    executedAt [⟨false, .pipe, 0⟩, ⟨false, .cand, 0⟩, ⟨false, .cnone, 7⟩] 2
      = false := by
  exact ⟨by decide, by decide, by decide⟩

/-- One step of the walk, classified: a directly-run head that
short-circuits (skipping the rest), a directly-run head that continues
(its status condition, when its operator is `&&` or `||`, satisfied), or a
pipeline/trailing-pipe head after which no node is ever `direct`. -/
theorem execChain_split (n : XNode) (rest : List XNode) :
    ((execChain (n :: rest)).1 = .direct :: rest.map (fun _ => EKind.skip) ∧
      ((n.op = .cand ∧ n.status ≠ 0) ∨ (n.op = .cor ∧ n.status = 0))) ∨
    ((execChain (n :: rest)).1 = .direct :: (execChain rest).1 ∧
      (n.op = .cand → n.status = 0) ∧ (n.op = .cor → n.status ≠ 0)) ∨
    (n.op = .pipe ∧
      ∀ i k, (execChain (n :: rest)).1.get? i = some k → ¬ k = .direct) := by
  by_cases hb : n.builtin
  · by_cases hstop : (n.op = .cand ∧ n.status ≠ 0) ∨ (n.op = .cor ∧ n.status = 0)
    · exact Or.inl ⟨by simp [execChain, hb, hstop], hstop⟩
    · refine Or.inr (Or.inl ⟨by simp [execChain, hb, hstop], ?_, ?_⟩)
      · intro ho; by_contra hs; exact hstop (Or.inl ⟨ho, hs⟩)
      · intro ho hs; exact hstop (Or.inr ⟨ho, hs⟩)
  · by_cases hp : n.op = .pipe
    · refine Or.inr (Or.inr ⟨hp, ?_⟩)
      intro i k hk
      cases rest with
      | nil =>
        have he : (execChain (n :: ([] : List XNode))).1 = .skip :: [] := by
          simp [execChain, hb, hp]
        rw [he] at hk
        rcases i with _ | j
        · simp only [List.get?_cons_zero, Option.some_inj] at hk
          rw [← hk]
          simp
        · simp at hk
      | cons m r2 =>
        have he : (execChain (n :: m :: r2)).1 =
            ((pipeSplit (n :: m :: r2)).1.map (fun _ => EKind.stage)) ++
              ((pipeSplit (n :: m :: r2)).2.map (fun _ => EKind.skip)) := by
          simp [execChain, hb, hp]
        rw [he] at hk
        exact pipeKinds_not_direct _ _ i k hk
    · by_cases hbg : n.op = .background
      · refine Or.inr (Or.inl ⟨by simp [execChain, hb, hp, hbg], ?_, ?_⟩)
        · intro ho; rw [hbg] at ho; exact absurd ho (by decide)
        · intro ho; rw [hbg] at ho; exact absurd ho (by decide)
      · by_cases hstop : (n.op = .cand ∧ n.status ≠ 0) ∨ (n.op = .cor ∧ n.status = 0)
        · exact Or.inl ⟨by simp [execChain, hb, hp, hbg, hstop], hstop⟩
        · refine Or.inr (Or.inl ⟨by simp [execChain, hb, hp, hbg, hstop], ?_, ?_⟩)
          · intro ho; by_contra hs; exact hstop (Or.inl ⟨ho, hs⟩)
          · intro ho hs; exact hstop (Or.inr ⟨ho, hs⟩)

/-- Claim C4, amended: for every `A && B` or `A || B` pair where `A` is
executed *directly* by the walk (not as a stage of a pipeline, which makes
the executor return without evaluating the chain operator), `B` is
executed iff the status condition holds (`A = 0` for `&&`, `A ≠ 0` for
`||`) *and* `B` itself is runnable — `B` is skipped, despite a satisfied
condition, when it is an external command whose own operator is a trailing
pipe (no following node), which `execute_pipeline` rejects with -1 without
forking. -/
theorem claim_C4_amended :
    ∀ (ns : List XNode) (i : Nat) (A : XNode),
      (execChain ns).1.get? i = some .direct →
      ns.get? i = some A →
      (A.op = .cand ∨ A.op = .cor) →
      (executedAt ns (i + 1) = true ↔
        ((if A.op = .cand then A.status = 0 else A.status ≠ 0) ∧
          headRuns (ns.drop (i + 1)) = true)) := by
  intro ns
  induction ns with
  | nil => intro i A h; simp [execChain] at h
  | cons n rest ih =>
    intro i A hdir hget hop
    rcases execChain_split n rest with ⟨hk, hstop⟩ | ⟨hk, hc1, hc2⟩ | ⟨_, hnd⟩
    · -- the head short-circuits: everything after it is skipped
      rcases i with _ | j
      · have hA : n = A := by simpa using hget
        subst hA
        have hx : executedAt (n :: rest) 1 = false := by
          unfold executedAt
          rw [hk]
          cases rest <;> simp
        rw [hx]
        constructor
        · intro h2; cases h2
        · intro ⟨hcond, _⟩
          exfalso
          rcases hstop with ⟨ho, hs⟩ | ⟨ho, hs⟩
          · rw [if_pos ho] at hcond; exact hs hcond
          · rw [if_neg (by rw [ho]; intro h2; cases h2)] at hcond
            exact hcond hs
      · exfalso
        rw [hk] at hdir
        simp only [List.get?_cons_succ] at hdir
        have hm := List.get?_mem hdir
        rcases List.mem_map.mp hm with ⟨_, _, h2⟩
        cases h2
    · -- the head runs and the walk continues into the tail
      rcases i with _ | j
      · have hA : n = A := by simpa using hget
        subst hA
        have hcond : if n.op = .cand then n.status = 0 else n.status ≠ 0 := by
          rcases hop with ho | ho
          · rw [if_pos ho]; exact hc1 ho
          · rw [if_neg (by rw [ho]; intro h2; cases h2)]
            exact hc2 ho
        have hx : executedAt (n :: rest) 1 = headRuns rest := by
          unfold executedAt
          rw [hk]
          have h0 := executedAt_zero rest
          unfold executedAt at h0
          exact h0
        rw [hx]
        simp only [List.drop_succ_cons, List.drop_zero]
        exact ⟨fun h2 => ⟨hcond, h2⟩, fun h2 => h2.2⟩
      · rw [hk] at hdir
        simp only [List.get?_cons_succ] at hdir
        have hget2 : rest.get? j = some A := by simpa using hget
        have hx : executedAt (n :: rest) (j + 1 + 1) = executedAt rest (j + 1) := by
          unfold executedAt
          rw [hk]
          rfl
        rw [hx]
        have hdrop : (n :: rest).drop (j + 1 + 1) = rest.drop (j + 1) := rfl
        rw [hdrop]
        exact ih j A hdir hget2 hop
    · -- pipeline head: no node of this chain is ever run directly
      exact absurd rfl (hnd i _ hdir)

/-- Witness for C4 at a concrete chain `true && x`. -/
theorem claim_C4_witness :
    executedAt [⟨true, .cand, 0⟩, ⟨false, .cnone, 5⟩] (0 + 1) = true ↔
      ((if (⟨true, .cand, 0⟩ : XNode).op = .cand
        then (⟨true, .cand, 0⟩ : XNode).status = 0
        else (⟨true, .cand, 0⟩ : XNode).status ≠ 0) ∧
        headRuns (([⟨true, .cand, 0⟩, ⟨false, .cnone, 5⟩] :
          List XNode).drop (0 + 1)) = true) :=
  claim_C4_amended [⟨true, .cand, 0⟩, ⟨false, .cnone, 5⟩] 0 ⟨true, .cand, 0⟩
    (by decide) (by decide) (Or.inl rfl)

/-! ## C3: trailing pipe and the Pipe-implies-next invariant;
C8: the argv bound -/


theorem getLast?_cons_of_some {α : Type} (a : α) (l : List α) (x : α)
    (h : l.getLast? = some x) : (a :: l).getLast? = some x := by
  cases l with
  | nil => cases h
  | cons b l2 => rw [List.getLast?_cons_cons]; exact h

theorem getLast?_cons_of_ne {α : Type} (a : α) (l : List α) (h : l ≠ []) :
    (a :: l).getLast? = l.getLast? := by
  cases l with
  | nil => exact absurd rfl h
  | cons b l2 => exact List.getLast?_cons_cons

theorem opOf_pipe (v : List Char) (prev : COp) (hprev : ¬ prev = .pipe)
    (h : opOf v prev = .pipe) : v = "|".toList := by
  unfold opOf at h
  split_ifs at h with h1 h2 h3 h4 h5
  · exact h1
  all_goals first
    | (exact absurd h (by decide))
    | (exact absurd h hprev)

theorem add_argument_op (env : PEnv) (c : Cmd) (a : List Char) :
    (add_argument env c a).op = c.op := by
  unfold add_argument
  split
  · rfl
  · split <;> rfl

theorem parseLoop_ne_nil (env : PEnv) :
    ∀ (cur : Cmd) (ts : List Tok) (chain : List Cmd),
      parseLoop env cur ts = some chain → chain ≠ [] := by
  intro cur ts
  induction cur, ts using parseLoop.induct env
  all_goals intro chain h
  all_goals (try simp only [parseLoop] at h)
  all_goals (try simp only [*] at h)
  all_goals first
    | exact Option.noConfusion h
    | (rcases Option.map_eq_some'.mp h with ⟨y, hy, rfl⟩; simp)
    | (injection h with h2; subst h2; simp)
    | (rename_i ih; exact ih chain h)
    | skip
  case case5 =>
    rename_i hc
    rw [parseLoop.eq_def] at h
    simp only [hc, if_true] at h
    exact Option.noConfusion h
  case case6 =>
    rename_i hc1 hc2
    rw [parseLoop.eq_def] at h
    simp only [hc1, hc2, if_true, if_false] at h
    exact Option.noConfusion h
  case case7 =>
    rename_i hc1 hc2 ih
    rw [parseLoop.eq_def] at h
    simp only [hc1, hc2, if_true, if_false, if_neg, ite_false, ite_true] at h
    exact ih chain h
  case case9 =>
    rename_i hty hne ih
    rw [if_pos hty] at h
    exact ih chain h

theorem parseLoop_last_pipe (env : PEnv) :
    ∀ (cur : Cmd) (ts : List Tok),
      ¬ cur.op = .pipe →
      ∀ (chain : List Cmd) (last : Cmd),
        parseLoop env cur ts = some chain →
        chain.getLast? = some last →
        last.op = .pipe →
        ts.getLast? = some (.operator "|".toList) := by
  intro cur ts
  induction cur, ts using parseLoop.induct env
  case case1 =>
    intro hcur chain last h hlast hpipe
    simp only [parseLoop] at h
    injection h with h2
    subst h2
    simp only [List.getLast?_singleton, Option.some_inj] at hlast
    subst hlast
    exact absurd hpipe hcur
  case case2 =>
    rename_i cur rest ih
    intro hcur chain last h hlast hpipe
    simp only [parseLoop] at h
    have hx := ih hcur chain last h hlast hpipe
    exact getLast?_cons_of_some _ _ _ hx
  case case3 =>
    rename_i cur v
    intro hcur chain last h hlast hpipe
    simp only [parseLoop] at h
    injection h with h2
    subst h2
    simp only [List.getLast?_singleton, Option.some_inj] at hlast
    subst hlast
    have hv := opOf_pipe v cur.op hcur hpipe
    subst hv
    simp [List.getLast?_singleton]
  case case4 =>
    rename_i cur v head tail ih
    intro hcur chain last h hlast hpipe
    simp only [parseLoop] at h
    rcases Option.map_eq_some'.mp h with ⟨y, hy, rfl⟩
    have hyne : y ≠ [] := parseLoop_ne_nil env _ _ y hy
    rw [getLast?_cons_of_ne _ _ hyne] at hlast
    have hx := ih (by intro h2; cases h2) y last hy hlast hpipe
    exact getLast?_cons_of_some _ _ _ hx
  case case5 =>
    rename_i hc
    intro hcur chain last h hlast hpipe
    rw [parseLoop.eq_def] at h
    simp only [hc, if_true] at h
    exact Option.noConfusion h
  case case6 =>
    rename_i hc1 hc2
    intro hcur chain last h hlast hpipe
    rw [parseLoop.eq_def] at h
    simp only [hc1, hc2, if_true, if_false] at h
    exact Option.noConfusion h
  case case7 =>
    rename_i cur rest hc1 hc2 ih
    intro hcur chain last h hlast hpipe
    rw [parseLoop.eq_def] at h
    simp only [hc1, hc2, if_true, if_false, ite_false, ite_true] at h
    have hx := ih hcur chain last h hlast hpipe
    exact getLast?_cons_of_some _ _ _ hx
  case case8 =>
    rename_i hc1 hc2 hc3
    intro hcur chain last h hlast hpipe
    simp at hc3
  case case9 =>
    rename_i cur v hc1 hc2 head tail ty hty hne ih
    intro hcur chain last h hlast hpipe
    rw [parseLoop.eq_def] at h
    simp only [hc1, hc2, if_true, if_false, ite_false, ite_true, List.isEmpty_cons] at h
    rw [if_pos hty] at h
    have hx := ih hcur chain last h hlast hpipe
    exact getLast?_cons_of_some _ _ _ (getLast?_cons_of_some _ _ _ hx)
  case case10 =>
    rename_i cur v hc1 hc2 head tail ty hty hne ih
    intro hcur chain last h hlast hpipe
    rw [parseLoop.eq_def] at h
    simp only [hc1, hc2, if_true, if_false, ite_false, ite_true, List.isEmpty_cons] at h
    rw [if_neg hty] at h
    have hx := ih hcur chain last h hlast hpipe
    exact getLast?_cons_of_some _ _ _ (getLast?_cons_of_some _ _ _ hx)
  case case11 =>
    rename_i cur rest v hcs ih
    intro hcur chain last h hlast hpipe
    simp only [parseLoop, hcs] at h
    have hx := ih hcur chain last h hlast hpipe
    exact getLast?_cons_of_some _ _ _ hx
  case case12 =>
    rename_i cur rest v out hcs hfull
    intro hcur chain last h hlast hpipe
    simp only [parseLoop, hcs, hfull, if_true] at h
    exact Option.noConfusion h
  case case13 =>
    rename_i cur rest v out hcs hfull ih
    intro hcur chain last h hlast hpipe
    simp only [parseLoop, hcs, hfull, if_false, ite_false, ite_true] at h
    have hx := ih (by simp only [add_argument_op]; exact hcur) chain last h hlast hpipe
    exact getLast?_cons_of_some _ _ _ hx
  case case14 =>
    rename_i cur rest v hfull
    intro hcur chain last h hlast hpipe
    simp only [parseLoop, hfull, if_true] at h
    exact Option.noConfusion h
  case case15 =>
    rename_i cur rest v hfull ih
    intro hcur chain last h hlast hpipe
    simp only [parseLoop, hfull, if_false, ite_false, ite_true] at h
    have hx := ih (by simp only [add_argument_op]; exact hcur) chain last h hlast hpipe
    exact getLast?_cons_of_some _ _ _ hx
  case case16 =>
    rename_i cur rest v hfull
    intro hcur chain last h hlast hpipe
    simp only [parseLoop, hfull, if_true] at h
    exact Option.noConfusion h
  case case17 =>
    rename_i cur rest v hfull ih
    intro hcur chain last h hlast hpipe
    simp only [parseLoop, hfull, if_false, ite_false, ite_true] at h
    have hx := ih (by simp only [add_argument_op]; exact hcur) chain last h hlast hpipe
    exact getLast?_cons_of_some _ _ _ hx
  case case18 =>
    rename_i cur rest v hfull
    intro hcur chain last h hlast hpipe
    simp only [parseLoop, hfull, if_true] at h
    exact Option.noConfusion h
  case case19 =>
    rename_i cur rest v hfull ih
    intro hcur chain last h hlast hpipe
    simp only [parseLoop, hfull, if_false, ite_false, ite_true] at h
    have hx := ih (by simp only [add_argument_op]; exact hcur) chain last h hlast hpipe
    exact getLast?_cons_of_some _ _ _ hx



theorem add_argument_le (env : PEnv) (c : Cmd) (a : List Char)
    (h : c.args.length ≤ MAX_ARGS - 1) :
    (add_argument env c a).args.length ≤ MAX_ARGS - 1 := by
  unfold add_argument
  split
  · simp only [List.length_append]
    have ht := List.length_take_le (MAX_ARGS - 1 - c.args.length) (env.glob a)
    omega
  · split
    · exact h
    · rename_i hfull
      simp only [List.length_append, List.length_cons, List.length_nil]
      omega

theorem modifyLast_length (f : List Char → List Char) :
    ∀ (l : List (List Char)), (modifyLast f l).length = l.length := by
  intro l
  induction l with
  | nil => rfl
  | cons a rest ih =>
    cases rest with
    | nil => rfl
    | cons b r2 =>
      simp only [modifyLast, List.length_cons]
      simpa using ih

theorem parseLoop_args_le (env : PEnv) :
    ∀ (cur : Cmd) (ts : List Tok),
      cur.args.length ≤ MAX_ARGS - 1 →
      ∀ (chain : List Cmd),
        parseLoop env cur ts = some chain →
        ∀ c ∈ chain, c.args.length ≤ MAX_ARGS - 1 := by
  intro cur ts
  induction cur, ts using parseLoop.induct env
  case case1 =>
    intro hcur chain h c hc
    simp only [parseLoop] at h
    injection h with h2
    subst h2
    rcases List.mem_singleton.mp hc with rfl
    exact hcur
  case case2 =>
    rename_i cur rest ih
    intro hcur chain h c hc
    simp only [parseLoop] at h
    exact ih hcur chain h c hc
  case case3 =>
    rename_i cur v
    intro hcur chain h c hc
    simp only [parseLoop] at h
    injection h with h2
    subst h2
    rcases List.mem_singleton.mp hc with rfl
    exact hcur
  case case4 =>
    rename_i cur v head tail ih
    intro hcur chain h c hc
    simp only [parseLoop] at h
    rcases Option.map_eq_some'.mp h with ⟨y, hy, rfl⟩
    rcases List.mem_cons.mp hc with rfl | hm
    · exact hcur
    · exact ih (by simp [create_command]) y hy c hm
  case case5 =>
    rename_i hc5
    intro hcur chain h c hc
    rw [parseLoop.eq_def] at h
    simp only [hc5, if_true] at h
    exact Option.noConfusion h
  case case6 =>
    rename_i hc1 hc2
    intro hcur chain h c hc
    rw [parseLoop.eq_def] at h
    simp only [hc1, hc2, if_true, if_false] at h
    exact Option.noConfusion h
  case case7 =>
    rename_i cur rest hc1 hc2 ih
    intro hcur chain h c hc
    rw [parseLoop.eq_def] at h
    simp only [hc1, hc2, if_true, if_false, ite_false, ite_true] at h
    exact ih hcur chain h c hc
  case case8 =>
    rename_i hc1 hc2 hc3
    intro hcur chain h c hc
    simp at hc3
  case case9 =>
    rename_i cur v hc1 hc2 head tail ty hty hne ih
    intro hcur chain h c hc
    rw [parseLoop.eq_def] at h
    simp only [hc1, hc2, if_true, if_false, ite_false, ite_true, List.isEmpty_cons] at h
    rw [if_pos hty] at h
    exact ih hcur chain h c hc
  case case10 =>
    rename_i cur v hc1 hc2 head tail ty hty hne ih
    intro hcur chain h c hc
    rw [parseLoop.eq_def] at h
    simp only [hc1, hc2, if_true, if_false, ite_false, ite_true, List.isEmpty_cons] at h
    rw [if_neg hty] at h
    exact ih hcur chain h c hc
  case case11 =>
    rename_i cur rest v hcs ih
    intro hcur chain h c hc
    simp only [parseLoop, hcs] at h
    exact ih hcur chain h c hc
  case case12 =>
    rename_i cur rest v out hcs hfull
    intro hcur chain h c hc
    simp only [parseLoop, hcs, hfull, if_true] at h
    exact Option.noConfusion h
  case case13 =>
    rename_i cur rest v out hcs hfull ih
    intro hcur chain h c hc
    simp only [parseLoop, hcs, hfull, if_false, ite_false, ite_true] at h
    exact ih (add_argument_le env cur out hcur) chain h c hc
  case case14 =>
    rename_i cur rest v hfull
    intro hcur chain h c hc
    simp only [parseLoop, hfull, if_true] at h
    exact Option.noConfusion h
  case case15 =>
    rename_i cur rest v hfull ih
    intro hcur chain h c hc
    simp only [parseLoop, hfull, if_false, ite_false, ite_true] at h
    refine ih ?_ chain h c hc
    show (modifyLast (expand_tilde env) (add_argument env cur v).args).length ≤ MAX_ARGS - 1
    rw [modifyLast_length]
    exact add_argument_le env cur v hcur
  case case16 =>
    rename_i cur rest v hfull
    intro hcur chain h c hc
    simp only [parseLoop, hfull, if_true] at h
    exact Option.noConfusion h
  case case17 =>
    rename_i cur rest v hfull ih
    intro hcur chain h c hc
    simp only [parseLoop, hfull, if_false, ite_false, ite_true] at h
    exact ih (add_argument_le env cur v hcur) chain h c hc
  case case18 =>
    rename_i cur rest v hfull
    intro hcur chain h c hc
    simp only [parseLoop, hfull, if_true] at h
    exact Option.noConfusion h
  case case19 =>
    rename_i cur rest v hfull ih
    intro hcur chain h c hc
    simp only [parseLoop, hfull, if_false, ite_false, ite_true] at h
    exact ih (add_argument_le env cur v hcur) chain h c hc



/-- Claim C3, counterexample: on the token list `a |` (a trailing pipe)
the parser does not reject the line: it returns a one-node chain whose
node has `op = Pipe` and no successor (`next = NULL`). -/
theorem claim_C3_counterexample :
    qsh_parse_command pEnv0 [.literal "a".toList, .operator "|".toList] =
      some [⟨["a".toList], [], .pipe⟩] ∧
    (([⟨["a".toList], [], .pipe⟩] : List Cmd).getLast?).map Cmd.op =
      some COp.pipe := by
  exact ⟨by decide, by decide⟩

/-- Claim C3, amended: after parsing succeeds, a node with `op = Pipe`
and `next = NULL` can only be the final node of the chain, and only when
the final token of the line is the operator `|`: the parser accepts a
trailing pipe (producing such a node) instead of rejecting it; every
non-final node trivially has a successor. -/
theorem claim_C3_amended (env : PEnv) (ts : List Tok) (chain : List Cmd)
    (last : Cmd) (hp : qsh_parse_command env ts = some chain)
    (hlast : chain.getLast? = some last) (hpipe : last.op = .pipe) :
    ts.getLast? = some (.operator "|".toList) := by
  unfold qsh_parse_command at hp
  by_cases hts : ts.dropWhile isAssignTok = []
  · rw [if_pos hts] at hp
    exact Option.noConfusion hp
  · rw [if_neg hts] at hp
    have hx := parseLoop_last_pipe env create_command (ts.dropWhile isAssignTok)
      (by intro h2; cases h2) chain last hp hlast hpipe
    rcases (List.dropWhile_suffix isAssignTok : ts.dropWhile isAssignTok <:+ ts)
      with ⟨pre, hpre⟩
    rw [← hpre]
    rw [List.getLast?_append_of_ne_nil _ hts]
    exact hx

/-- Witness for C3 at the trailing-pipe token list. -/
theorem claim_C3_witness :
    ([Tok.literal "a".toList, Tok.operator "|".toList] : List Tok).getLast? =
      some (.operator "|".toList) :=
  claim_C3_amended pEnv0 [.literal "a".toList, .operator "|".toList]
    [⟨["a".toList], [], .pipe⟩] ⟨["a".toList], [], .pipe⟩
    (by decide) (by decide) rfl

/-- Claim C8, counterexample: the claim says the parser errors exactly
when a command's argument count would exceed 64, but 64 single-word
arguments are already rejected (`argc >= MAX_ARGS - 1` with `MAX_ARGS =
64` fires at the 64th), while 63 are accepted. -/
theorem claim_C8_counterexample :
    qsh_parse_command pEnv0 (List.replicate 64 (.literal "a".toList)) = none ∧
    (qsh_parse_command pEnv0 (List.replicate 63 (.literal "a".toList))).isSome
      = true := by
  exact ⟨by decide, by decide⟩

/-- Claim C8, amended: a command node's argv is bounded by
`MAX_ARGS - 1 = 63` arguments: the parser returns a parse error when a
word or substitution token arrives while the current command already
holds 63 arguments (glob expansion instead silently truncates at 63), and
on success every node satisfies `argc ≤ 63`. -/
theorem claim_C8_amended (env : PEnv) (ts : List Tok) (chain : List Cmd)
    (hp : qsh_parse_command env ts = some chain) :
    ∀ c ∈ chain, c.args.length ≤ MAX_ARGS - 1 := by
  unfold qsh_parse_command at hp
  by_cases hts : ts.dropWhile isAssignTok = []
  · rw [if_pos hts] at hp
    exact Option.noConfusion hp
  · rw [if_neg hts] at hp
    exact parseLoop_args_le env create_command (ts.dropWhile isAssignTok)
      (by simp [create_command]) chain hp

/-- Witness for C8 at a one-token command. -/
theorem claim_C8_witness :
    (⟨["a".toList], [], .cnone⟩ : Cmd).args.length ≤ MAX_ARGS - 1 :=
  claim_C8_amended pEnv0 [.literal "a".toList] [⟨["a".toList], [], .cnone⟩]
    (by decide) ⟨["a".toList], [], .cnone⟩ (by decide)

/-! ## Unclosed quotes (tokenizer) and the shadowed arithmetic branch -/

theorem qScanPlain_noQuote (q : Char) :
    ∀ (t : List Char), ¬ q ∈ t → qScanPlain q t = (t, none) := by
  intro t
  induction t with
  | nil => intro _; rfl
  | cons c t2 ih =>
    intro h
    have hc : ¬ c = q := fun he => h (he ▸ List.mem_cons_self c t2)
    have ht : ¬ q ∈ t2 := fun he => h (List.mem_cons_of_mem c he)
    simp only [qScanPlain, if_neg hc, ih ht]

theorem alpha_facts (c : Char) (h : c.isAlpha = true) :
    ¬ c = '#' ∧ ¬ c = '$' ∧ ¬ c = '`' ∧ ¬ c = '<' ∧ ¬ c = '"' ∧
    ¬ c = '\'' ∧ ¬ c = '!' ∧ ¬ c = '2' ∧ is_operator_char c = false ∧
    isSp c = false ∧ ¬ c = '\\' := by
  refine ⟨?_, ?_, ?_, ?_, ?_, ?_, ?_, ?_, ?_, ?_, ?_⟩
  all_goals first
    | (intro he; subst he; exact absurd h (by decide))
    | skip
  · -- is_operator_char c = false
    simp only [is_operator_char, decide_eq_false_iff_not]
    rintro (rfl | rfl | rfl | rfl | rfl) <;> exact absurd h (by decide)
  · -- isSp c = false
    simp only [isSp, decide_eq_false_iff_not]
    rintro (rfl | rfl | rfl | rfl | rfl | rfl) <;> exact absurd h (by decide)

theorem litScan_alpha :
    ∀ (pre rest : List Char), (∀ c ∈ pre, c.isAlpha = true) →
      litScan none (pre ++ ' ' :: rest) = (pre, ' ' :: rest) := by
  intro pre
  induction pre with
  | nil =>
    intro rest _
    simp [litScan, isSp]
  | cons c pre2 ih =>
    intro rest hall
    have hc := alpha_facts c (hall c (List.mem_cons_self c pre2))
    rw [List.cons_append, litScan.eq_def]
    split
    · rename_i x heq
      cases heq
    · rename_i x1 x t2 heq
      exfalso
      injection heq with h1 _
      exact hc.2.2.2.2.2.2.2.2.2.2 h1
    · rename_i x heq
      exfalso
      injection heq with h1 _
      exact hc.2.2.2.2.2.2.2.2.2.2 h1
    · rename_i x2 ch tt x1 x0 heq
      injection heq with he1 he2
      subst he1
      subst he2
      rw [if_neg (by simp), if_neg ?_]
      · have := ih rest (fun x hx => hall x (List.mem_cons_of_mem c hx))
        rw [this]
      · intro hx
        rcases hx with hx | hx | hx | hx | hx
        · rw [hc.2.2.2.2.2.2.2.2.2.1] at hx; cases hx
        · rw [hc.2.2.2.2.2.2.2.2.1] at hx; cases hx
        · exact hc.2.2.2.2.1 hx
        · exact hc.2.2.2.2.2.1 hx
        · exact hc.2.1 hx
theorem tkIter_alpha (env : TkEnv) (sq dq : Bool) (c : Char) (r : List Char)
    (h : c.isAlpha = true) : tkIter env sq dq c r = tkLit sq dq c r := by
  obtain ⟨h1, h2, h3, h4, h5, h6, h7, h8, h9, h10, h11⟩ := alpha_facts c h
  simp only [tkIter, tkBt, tkHeredoc, tkOpBr, tkQuote, tkHist, tkArith, tkVarBr,
    h1, h2, h3, h4, h5, h6, h7, h8, h9, Bool.false_eq_true, false_and, and_false,
    false_or, or_self, or_false, if_false, ite_false]

theorem tkIter_squote (env : TkEnv) (dq : Bool) (t : List Char)
    (h : ¬ '\'' ∈ t) : tkIter env false dq '\'' t = .step [] true dq [] := by
  have e1 : ¬ ('\'' = '#') := by decide
  have e2 : ¬ ('\'' = '$') := by decide
  have e3 : ¬ ('\'' = '`') := by decide
  have e4 : ¬ ('\'' = '<') := by decide
  have e5 : ¬ ('\'' = '\"') := by decide
  have e6 : is_operator_char '\'' = false := by decide
  have e7 : ¬ ('\'' = '2') := by decide
  simp only [tkIter, tkBt, tkHeredoc, tkOpBr, tkQuote,
    e1, e2, e3, e4, e5, e6, e7, Bool.false_eq_true, false_and, and_false,
    false_or, or_self, or_false, if_false, ite_false, or_true, if_true, ite_true]
  rw [qScanPlain_noQuote '\'' t h]
  rfl

theorem tkLoop_unclosed (env : TkEnv) (f : Nat) (pre t : List Char)
    (hne : ¬ pre = []) (hall : ∀ c ∈ pre, c.isAlpha = true)
    (hq : ¬ '\'' ∈ t) :
    tkLoop env (f + 3) false false (pre ++ ' ' :: '\'' :: t) =
      some [.literal pre] := by
  obtain ⟨c, pre2, rfl⟩ : ∃ c pre2, pre = c :: pre2 := by
    cases pre with
    | nil => exact absurd rfl hne
    | cons a b => exact ⟨a, b, rfl⟩
  have hca := hall c (List.mem_cons_self c pre2)
  have hsp : isSp c = false := (alpha_facts c hca).2.2.2.2.2.2.2.2.2.1
  show tkLoop env (f + 2 + 1) false false ((c :: pre2) ++ ' ' :: '\'' :: t) = _
  rw [List.cons_append]
  simp only [tkLoop, List.dropWhile_cons, hsp, Bool.false_eq_true, if_false,
    ite_false]
  rw [tkIter_alpha env false false c _ hca]
  simp only [tkLit]
  rw [← List.cons_append, litScan_alpha (c :: pre2) ('\'' :: t) hall]
  rw [if_neg (by simp)]
  show Option.map _ (tkLoop env (f + 1 + 1) false false (' ' :: '\'' :: t)) = _
  have hsp2 : isSp ' ' = true := by decide
  have hsp3 : isSp '\'' = false := by decide
  simp only [tkLoop, List.dropWhile_cons, hsp2, hsp3, Bool.false_eq_true,
    if_true, if_false, ite_false, ite_true, List.dropWhile_nil]
  rw [tkIter_squote env false t hq]
  show Option.map _ (Option.map _ (tkLoop env (f + 0 + 1) true false [])) = _
  simp only [tkLoop, List.dropWhile_nil, Option.map_some, List.append_nil,
    List.nil_append]
  simp
/-- Claim C6 counterexample: the line consisting of the word echo, a
space and an unclosed single-quoted abc makes `tokenize` succeed with only
the literal `echo` as output: the unclosed quote is not reported and the
quoted text is silently dropped (the no-closing-quote arm of the quote
branch emits no token and clears the rest of the input). -/
theorem claim_C6_counterexample :
    tokenize tkEnv0 "echo 'abc".toList =
      some [.literal "echo".toList] := by decide

/-- Claim C6 amended: for every environment, every nonempty alphabetic
word `pre` and every tail `t` that contains no single quote, tokenizing
the line [pre, space, single quote, t] succeeds with just the literal
`pre`: an unclosed single quote never produces a failure, and the quoted
text is dropped. -/
theorem claim_C6_amended (env : TkEnv) (pre t : List Char)
    (h1 : ¬ pre = []) (h2 : ∀ c ∈ pre, c.isAlpha = true)
    (h3 : ¬ '\'' ∈ t) :
    tokenize env (pre ++ ' ' :: '\'' :: t) = some [.literal pre] := by
  unfold tokenize
  have hlen : (pre ++ ' ' :: '\'' :: t).length + 1 =
      pre.length + t.length + 3 := by
    simp [List.length_append]
    omega
  rw [hlen]
  exact tkLoop_unclosed env (pre.length + t.length) pre t h1 h2 h3

theorem claim_C6_witness :
    tokenize tkEnv0 ("ls".toList ++ ' ' :: '\'' :: "xy".toList) =
      some [.literal "ls".toList] :=
  claim_C6_amended tkEnv0 "ls".toList "xy".toList (by decide) (by decide)
    (by decide)

/-- Claim C1: the input $((1+2)) is NOT turned into a literal 3.  The
command-substitution branch of `tokenize` tests only the first two
characters and therefore also matches the arithmetic opener, so the
dedicated arithmetic branch is unreachable for balanced input: the
tokenizer emits a `TOKEN_CMD_SUB` token with payload (1+2) instead of
evaluating the expression. -/
theorem claim_C1_eval :
    tokenize tkEnv0 "$((1+2))".toList = some [.cmdSub "(1+2)".toList] ∧
      ¬ tokenize tkEnv0 "$((1+2))".toList = some [.literal "3".toList] := by
  constructor
  · decide
  · decide

end QSh
